import Mathlib

/-!
# basegraphycs: bounding boxes (`Base/Gfx.h`) and the wire renderer (`WireRenderer/Program.cpp`)

A shallow embedding of

* `gfx::FindBoundingBox2D` and `gfx::FindTriangleBoundingBox2D` (`Base/Gfx.h`),
  together with the standard-library algorithms they call
  (`std::min_element`, `std::max_element`, `std::min`, `std::max`);
* `DrawWireModel` (`WireRenderer/Program.cpp`), together with the binary32
  arithmetic of its projection.

Conventions.

* A `std::vector` is a `List` and an iterator into it is the offset of its element
  from `begin()`, so that `end()` is the length. Reading through an iterator or an
  index is an `Option`, `none` standing for the access that has no element
  behind it.
* The template parameter `T` is any type with a decidable linear order
  (`int` is `Int`; no operation used on it here can overflow).
* A `float` is an IEEE-754 binary32 value; arithmetic rounds to nearest, ties to
  even, and `static_cast<int>` truncates toward zero where the result fits an
  `int` of 32 bits.
-/

set_option autoImplicit false

namespace gfx

/-! ## Geometry types (`GfxTypes.h`) -/

/-- Two-component vector `Vector2D<T>`: the fields `x`, `y` read and brace-initialised in `Gfx.h`. -/
structure Vector2D (T : Type) where
  x : T
  y : T
  deriving DecidableEq, Repr

/-- Three-component vector `Vector3D<T>`: the fields `x`, `y` are read in `DrawWireModel`. -/
structure Vector3D (T : Type) where
  x : T
  y : T
  z : T
  deriving DecidableEq, Repr

/-- Axis-aligned box `Box2D<T>` with its two corners `topLeft` and `bottomRight`. -/
structure Box2D (T : Type) where
  topLeft : Vector2D T
  bottomRight : Vector2D T
  deriving DecidableEq, Repr

/-- Colour `ColorBGR`: four byte channels (blue, green, red, unused), as in `{0,255,0,0}`. -/
structure ColorBGR where
  b : Nat
  g : Nat
  r : Nat
  a : Nat
  deriving DecidableEq, Repr

/-! ## Standard-library algorithms used by `Gfx.h` -/

section StdAlgorithm

variable {α : Type}

/-- Loop of `std::min_element`. `smallest` is the iterator to the best element so
far, kept together with the element it points to; `first` is the iterator being
advanced, and the list holds the elements from `first` up to `last`. One step is
`if (comp(*first, *smallest)) smallest = first;`. -/
def min_element_loop (comp : α → α → Bool) (smallest : Nat × α) (first : Nat) :
    List α → Nat × α
  | [] => smallest
  | x :: rest =>
    min_element_loop comp (if comp x smallest.2 then (first, x) else smallest) (first + 1) rest

/-- Iterator returned by `std::min_element(begin, end, comp)`. On an empty range
the algorithm returns `last` at once (`if (first == last) return last;`), which is
offset 0 there; otherwise `smallest` starts at `first` and the loop runs from the
next element. -/
def min_element (comp : α → α → Bool) : List α → Nat
  | [] => 0
  | x :: rest => (min_element_loop comp (0, x) 1 rest).1

/-- Loop of `std::max_element`: `if (comp(*largest, *first)) largest = first;`. -/
def max_element_loop (comp : α → α → Bool) (largest : Nat × α) (first : Nat) :
    List α → Nat × α
  | [] => largest
  | x :: rest =>
    max_element_loop comp (if comp largest.2 x then (first, x) else largest) (first + 1) rest

/-- Iterator returned by `std::max_element(begin, end, comp)`; `last` on an empty range. -/
def max_element (comp : α → α → Bool) : List α → Nat
  | [] => 0
  | x :: rest => (max_element_loop comp (0, x) 1 rest).1

/-- The call `std::min<T>({a, b, c})`: the element behind the iterator that
`std::min_element` finds over the initializer list with `operator<`. -/
def std_min3 [LinearOrder α] (a b c : α) : α :=
  (min_element_loop (fun u v => decide (u < v)) (0, a) 1 [b, c]).2

/-- The call `std::max<T>({a, b, c})`: the element behind the iterator that
`std::max_element` finds over the initializer list with `operator<`. -/
def std_max3 [LinearOrder α] (a b c : α) : α :=
  (max_element_loop (fun u v => decide (u < v)) (0, a) 1 [b, c]).2

end StdAlgorithm

/-! ## Bounding boxes (`Gfx.h`) -/

section BoundingBox

variable {T : Type} [LinearOrder T]

/-- Comparator `[](Vector2D<T> elem1, Vector2D<T> elem2) {return elem1.x < elem2.x; }`. -/
def lessX (elem1 elem2 : Vector2D T) : Bool := decide (elem1.x < elem2.x)

/-- Comparator `[](Vector2D<T> elem1, Vector2D<T> elem2) {return elem1.y < elem2.y; }`. -/
def lessY (elem1 elem2 : Vector2D T) : Bool := decide (elem1.y < elem2.y)

/-- Function `gfx::FindBoundingBox2D` (`Gfx.h`, lines 88-101). Each of the four
iterators is read through (`*std::min_element(...)`), which finds no element when
the iterator is `points.end()`. -/
def FindBoundingBox2D (points : List (Vector2D T)) : Option (Box2D T) := do
  let minX ← points[min_element lessX points]?
  let minY ← points[min_element lessY points]?
  let maxX ← points[max_element lessX points]?
  let maxY ← points[max_element lessY points]?
  pure { topLeft := { x := minX.x, y := minY.y }, bottomRight := { x := maxX.x, y := maxY.y } }

/-- Function `gfx::FindTriangleBoundingBox2D` (`Gfx.h`, lines 112-119). -/
def FindTriangleBoundingBox2D (p0 p1 p2 : Vector2D T) : Box2D T :=
  { topLeft := { x := std_min3 p0.x p1.x p2.x, y := std_min3 p0.y p1.y p2.y },
    bottomRight := { x := std_max3 p0.x p1.x p2.x, y := std_max3 p0.y p1.y p2.y } }

/-- Box `outer` contains box `inner`: no edge of `inner` lies outside `outer`. -/
def Box2D.Contains (outer inner : Box2D T) : Prop :=
  outer.topLeft.x ≤ inner.topLeft.x ∧ outer.topLeft.y ≤ inner.topLeft.y ∧
    inner.bottomRight.x ≤ outer.bottomRight.x ∧ inner.bottomRight.y ≤ outer.bottomRight.y

/-- Box `box` encloses the point `p`. -/
def Box2D.Encloses (box : Box2D T) (p : Vector2D T) : Prop :=
  box.topLeft.x ≤ p.x ∧ p.x ≤ box.bottomRight.x ∧ box.topLeft.y ≤ p.y ∧ p.y ≤ box.bottomRight.y

end BoundingBox

/-! ## IEEE-754 binary32 (`float`) -/

/-- A value of `float`. Every finite binary32 number is a whole multiple of the
smallest subnormal, 2^-149: `finite negative units` is the number of magnitude
`units * 2^-149` with the sign `negative`, so that 1.0f is `finite false (2 ^ 149)`
and there are two zeros. -/
inductive Binary32
  | finite (negative : Bool) (units : Nat)
  | inf (negative : Bool)
  | nan
  deriving DecidableEq, Repr

namespace Binary32

/-- Nearest whole number to `n / d`, a tie going to the even one. -/
def roundHalfEven (n d : Nat) : Nat :=
  if 2 * (n % d) < d then n / d
  else if d < 2 * (n % d) then n / d + 1
  else n / d + (n / d) % 2

/-- Spacing of the binary32 numbers, in units of 2^-149, around a magnitude whose
whole part is `t` units: 1 while `t < 2 ^ 24` (24 significant bits, subnormals
included), doubling with every further bit of `t`. The first argument bounds the
number of halvings; `t` itself always suffices. -/
def spacingLoop : Nat → Nat → Nat
  | 0, _ => 1
  | fuel + 1, t => if t < 2 ^ 24 then 1 else 2 * spacingLoop fuel (t / 2)

/-- Spacing of the binary32 numbers around a magnitude of whole part `t` units. -/
def spacing (t : Nat) : Nat := spacingLoop t t

/-- Magnitude, in units of 2^-149, of the binary32 number nearest to `a / d` units
(ties to even), the exponent range taken as unbounded above. -/
def roundMag (a d : Nat) : Nat :=
  spacing (a / d) * roundHalfEven a (d * spacing (a / d))

/-- Rounding of the exact magnitude `a / d` units with sign `negative` to binary32:
a result of magnitude 2^128 (`2 ^ 128 * 2 ^ 149` units) or more overflows to infinity. -/
def round (negative : Bool) (a d : Nat) : Binary32 :=
  if roundMag a d < 2 ^ 128 * 2 ^ 149 then finite negative (roundMag a d) else inf negative

/-- The signed number of units of a finite value. -/
def signed (negative : Bool) (units : Nat) : Int :=
  if negative then -(units : Int) else (units : Int)

/-- Conversion of an integer to `float`. -/
def ofInt (n : Int) : Binary32 := round (decide (n < 0)) (n.natAbs * 2 ^ 149) 1

/-- The `float` nearest to the fraction `num / den`, with the sign `negative`. -/
def ofFraction (negative : Bool) (num den : Nat) : Binary32 := round negative (num * 2 ^ 149) den

/-- The literal `1.0f`. -/
def one : Binary32 := finite false (2 ^ 149)

/-- The literal `2.0f`. -/
def two : Binary32 := finite false (2 ^ 150)

/-- Addition `a + b` of `float`. An exact zero sum is `+0` unless both operands are
negative (zeros). -/
def add : Binary32 → Binary32 → Binary32
  | finite na ka, finite nb kb =>
    if signed na ka + signed nb kb = 0 then finite (na && nb) 0
    else round (decide (signed na ka + signed nb kb < 0)) (signed na ka + signed nb kb).natAbs 1
  | finite _ _, inf nb => inf nb
  | inf na, finite _ _ => inf na
  | inf na, inf nb => if na = nb then inf na else nan
  | _, _ => nan

/-- Multiplication `a * b` of `float`. -/
def mul : Binary32 → Binary32 → Binary32
  | finite na ka, finite nb kb => round (xor na nb) (ka * kb) (2 ^ 149)
  | finite na ka, inf nb => if ka = 0 then nan else inf (xor na nb)
  | inf na, finite nb kb => if kb = 0 then nan else inf (xor na nb)
  | inf na, inf nb => inf (xor na nb)
  | _, _ => nan

/-- Division `a / b` of `float`. -/
def div : Binary32 → Binary32 → Binary32
  | finite na ka, finite nb kb =>
    if kb = 0 then (if ka = 0 then nan else inf (xor na nb))
    else round (xor na nb) (ka * 2 ^ 149) kb
  | finite na _, inf nb => finite (xor na nb) 0
  | inf na, finite nb _ => inf (xor na nb)
  | _, _ => nan

/-- Comparison `a <= b` of `float`: false as soon as one side is a NaN. -/
def le : Binary32 → Binary32 → Bool
  | finite na ka, finite nb kb => decide (signed na ka ≤ signed nb kb)
  | finite _ _, inf nb => !nb
  | inf na, finite _ _ => na
  | inf na, inf nb => na || !nb
  | _, _ => false

/-- The rational value of a finite `float`; the infinities and NaN, which have
none, are given 0. -/
def toRat : Binary32 → ℚ
  | finite negative units => (signed negative units : ℚ) / 2 ^ 149
  | _ => 0

end Binary32

/-- Conversion `static_cast<int>(f)` of a `float` to the 32-bit `int`: the value
with its fraction dropped. The conversion is undefined, `none`, when that whole
number is not a value of `int`, and for the infinities and NaN. -/
def static_cast_int : Binary32 → Option Int
  | Binary32.finite negative units =>
    if Binary32.signed negative (units / 2 ^ 149) < 2 ^ 31 ∧
        -(2 ^ 31) ≤ Binary32.signed negative (units / 2 ^ 149) then
      some (Binary32.signed negative (units / 2 ^ 149))
    else none
  | _ => none

/-- Truncation toward zero of an exact rational: the quotient of numerator by
denominator, rounded toward zero. -/
def truncate (q : ℚ) : Int := Int.tdiv q.num (q.den : Int)

/-! ## The wire renderer (`WireRenderer/Program.cpp`) -/

section WireRenderer

/-- One request `gfx::SetLineSafe(image, pointSrc, pointDst, color)`. A coordinate
is the outcome of a `static_cast<int>`: `none` where that conversion is undefined
and the `int` passed has no determined value. -/
structure LineCall where
  pointSrc : Vector2D (Option Int)
  pointDst : Vector2D (Option Int)
  color : ColorBGR
  deriving DecidableEq, Repr

/-- Modelled from the spec: the class `TextureBuffer` (`TextureBuffer.h`) is not
among the sources. The surface has a width and a height fixed at creation; its
pixels are not modelled, the surface keeps instead the `SetLineSafe` requests it
has received, oldest first. -/
structure TextureBuffer where
  width : Nat
  height : Nat
  lines : List LineCall
  deriving DecidableEq, Repr

/-- Getter `TextureBuffer::GetWidth`. -/
def TextureBuffer.GetWidth (image : TextureBuffer) : Nat := image.width

/-- Getter `TextureBuffer::GetHeight`. -/
def TextureBuffer.GetHeight (image : TextureBuffer) : Nat := image.height

/-- Modelled from the spec: the body of `gfx::SetLineSafe` (`Gfx.cpp`) is not among
the sources. The call draws into the surface it is given and leaves the
dimensions alone; here it is recorded after the requests already received. -/
def SetLineSafe (image : TextureBuffer) (pointSrc pointDst : Vector2D (Option Int))
    (color : ColorBGR) : TextureBuffer :=
  { image with lines := image.lines ++ [{ pointSrc := pointSrc, pointDst := pointDst, color := color }] }

/-- Modelled from the spec: the class `VertexBuffer` (`VertexBuffer.h`) is not among
the sources. It holds the ordered vertex positions (`GetVertices`) and the ordered
faces (`GetFaces`), each face a `std::vector<int>` of vertex indices. -/
structure VertexBuffer where
  vertices : List (Vector3D Binary32)
  faces : List (List Int)
  deriving DecidableEq, Repr

/-- Getter `VertexBuffer::GetVertices`. -/
def VertexBuffer.GetVertices (model : VertexBuffer) : List (Vector3D Binary32) := model.vertices

/-- Getter `VertexBuffer::GetFaces`. -/
def VertexBuffer.GetFaces (model : VertexBuffer) : List (List Int) := model.faces

/-- Access `faceIndices[j]` into a `std::vector<int>`; `none` when `j` is past the end. -/
def indexAt (faceIndices : List Int) (j : Nat) : Option Int := faceIndices[j]?

/-- Access `model->GetVertices()[index]` with an `int` index: the index is converted
to the unsigned `size_type`, so a negative one lands far past the end. -/
def vertexAt (vertices : List (Vector3D Binary32)) (index : Int) : Option (Vector3D Binary32) :=
  if index < 0 then none else vertices[index.toNat]?

/-- Window abscissa `static_cast<int>((v.x + 1.0f)*(image->GetWidth() / 2.0f))`. -/
def toWindowX (image : TextureBuffer) (v : Vector3D Binary32) : Option Int :=
  static_cast_int
    (Binary32.mul (Binary32.add v.x Binary32.one)
      (Binary32.div (Binary32.ofInt image.GetWidth) Binary32.two))

/-- Window ordinate `static_cast<int>((v.y*-1 + 1.0f)*(image->GetHeight() / 2.0f))`. -/
def toWindowY (image : TextureBuffer) (v : Vector3D Binary32) : Option Int :=
  static_cast_int
    (Binary32.mul (Binary32.add (Binary32.mul v.y (Binary32.ofInt (-1))) Binary32.one)
      (Binary32.div (Binary32.ofInt image.GetHeight) Binary32.two))

/-- Body of the inner loop of `DrawWireModel` (lines 178-192) for one value of `j`. -/
def drawEdge (model : VertexBuffer) (color : ColorBGR) (faceIndices : List Int)
    (image : TextureBuffer) (j : Nat) : Option TextureBuffer := do
  let i0 ← indexAt faceIndices j
  let v0 ← vertexAt model.GetVertices i0
  let i1 ← indexAt faceIndices ((j + 1) % 3)
  let v1 ← vertexAt model.GetVertices i1
  let x0 := toWindowX image v0
  let y0 := toWindowY image v0
  let x1 := toWindowX image v1
  let y1 := toWindowY image v1
  pure (SetLineSafe image { x := x0, y := y0 } { x := x1, y := y1 } color)

/-- Body of the outer loop of `DrawWireModel` (lines 172-193) for one face:
the inner loop `for (unsigned int j = 0; j < 3; j++)`. -/
def drawFace (model : VertexBuffer) (color : ColorBGR) (image : TextureBuffer)
    (faceIndices : List Int) : Option TextureBuffer :=
  List.foldlM (drawEdge model color faceIndices) image [0, 1, 2]

/-- Procedure `DrawWireModel` (`Program.cpp`, lines 167-195): the loop over
`model->GetFaces()`. The result is `none` as soon as one lookup finds no element. -/
def DrawWireModel (image : TextureBuffer) (model : VertexBuffer) (color : ColorBGR) :
    Option TextureBuffer :=
  List.foldlM (drawFace model color) image model.GetFaces

/-- Projection of a vertex to window coordinates, as `DrawWireModel` computes it. -/
def project (image : TextureBuffer) (v : Vector3D Binary32) : Vector2D (Option Int) :=
  { x := toWindowX image v, y := toWindowY image v }

/-- A face is valid for a model: it has at least three indices and each of the
first three is an index into the vertex sequence. -/
def ValidFace (model : VertexBuffer) (face : List Int) : Prop :=
  3 ≤ face.length ∧
    ∀ k, k < 3 → ∀ i, face[k]? = some i → 0 ≤ i ∧ i < (model.vertices.length : Int)

/-- The closed outline of the triangle `a`, `b`, `c`: the segments `a b`, `b c`, `c a`. -/
def triangleOutline (image : TextureBuffer) (color : ColorBGR) (a b c : Vector3D Binary32) :
    List LineCall :=
  [{ pointSrc := project image a, pointDst := project image b, color := color },
   { pointSrc := project image b, pointDst := project image c, color := color },
   { pointSrc := project image c, pointDst := project image a, color := color }]

/-- The requests of one pass of the inner loop, when every lookup of the pass finds
its element. -/
def faceOutline (image : TextureBuffer) (model : VertexBuffer) (color : ColorBGR) :
    List Int → Option (List LineCall)
  | i0 :: i1 :: i2 :: _ => do
    let a ← vertexAt model.vertices i0
    let b ← vertexAt model.vertices i1
    let c ← vertexAt model.vertices i2
    pure (triangleOutline image color a b c)
  | _ => none

/-! ### The wire renderer in the words of the specification -/

/-- Position in a window of `width` by `height` pixels of a vertex in normalised
coordinates: `x` runs from -1 at the left edge to 1 at the right edge and `y` from
1 at the top edge to -1 at the bottom edge, each scaled by half the extent in
binary32 and cut to a whole number. -/
def windowPoint (width height : Nat) (v : Vector3D Binary32) : Vector2D (Option Int) :=
  { x := static_cast_int
      (Binary32.mul (Binary32.add v.x Binary32.one)
        (Binary32.div (Binary32.ofInt width) Binary32.two)),
    y := static_cast_int
      (Binary32.mul (Binary32.add (Binary32.mul v.y (Binary32.ofInt (-1))) Binary32.one)
        (Binary32.div (Binary32.ofInt height) Binary32.two)) }

/-- The calls `calls` are the closed outline of `face`: the face starts with three
indices `i0`, `i1`, `i2`, each the position of a vertex in the vertex sequence, and
the calls are the three segments from the window point of `v[i0]` to that of
`v[i1]`, from `v[i1]` to `v[i2]` and from `v[i2]` to `v[i0]`, all in `color`. -/
def IsFaceOutline (image : TextureBuffer) (model : VertexBuffer) (color : ColorBGR)
    (face : List Int) (calls : List LineCall) : Prop :=
  ∃ (n0 n1 n2 : Nat) (rest : List Int) (a b c : Vector3D Binary32),
    face = (n0 : Int) :: (n1 : Int) :: (n2 : Int) :: rest ∧
    model.vertices[n0]? = some a ∧ model.vertices[n1]? = some b ∧
    model.vertices[n2]? = some c ∧
    calls =
      [{ pointSrc := windowPoint image.width image.height a,
         pointDst := windowPoint image.width image.height b, color := color },
       { pointSrc := windowPoint image.width image.height b,
         pointDst := windowPoint image.width image.height c, color := color },
       { pointSrc := windowPoint image.width image.height c,
         pointDst := windowPoint image.width image.height a, color := color }]

/-! ### Sample inputs -/

/-- Five integer points, none of them a corner of their bounding box (-2,1), (5,9). -/
def samplePoints : List (Vector2D Int) :=
  [{ x := 3, y := 7 }, { x := -2, y := 4 }, { x := 5, y := 3 }, { x := 0, y := 9 },
    { x := 1, y := 1 }]

/-- An empty 800 by 600 surface. -/
def sampleImage : TextureBuffer := { width := 800, height := 600, lines := [] }

/-- A surface 2^24 + 3 pixels wide and one pixel high; its width is not a binary32 number. -/
def wideImage : TextureBuffer := { width := 2 ^ 24 + 3, height := 1, lines := [] }

/-- The vertex (0.27f, 0.1f, 0): its `x` is 9059697 * 2^-25 and its `y` is 13421773 * 2^-27. -/
def sampleVertex : Vector3D Binary32 :=
  { x := Binary32.ofFraction false 27 100, y := Binary32.ofFraction false 1 10,
    z := Binary32.finite false 0 }

/-- The vertex whose `x` is the binary32 number 0x1.147adep-2 = 9059695 * 2^-25, just
below 0.27, and whose `y` is 2^-30. -/
def edgeVertex : Vector3D Binary32 :=
  { x := Binary32.finite false (9059695 * 2 ^ 124), y := Binary32.finite false (2 ^ 119),
    z := Binary32.finite false 0 }

/-- The right-hand top corner (1, 1, 0) of the normalised square. -/
def cornerVertex : Vector3D Binary32 :=
  { x := Binary32.one, y := Binary32.one, z := Binary32.finite false 0 }

/-- Four vertices and two faces; the first face carries a fourth index that names no vertex. -/
def sampleModel : VertexBuffer :=
  { vertices :=
      [{ x := Binary32.finite false 0, y := Binary32.finite false 0, z := Binary32.finite false 0 },
       { x := Binary32.ofFraction false 1 2, y := Binary32.ofFraction true 1 4,
         z := Binary32.finite false 0 },
       { x := Binary32.ofInt (-1), y := Binary32.ofInt 1, z := Binary32.finite false 0 },
       { x := Binary32.ofFraction false 27 100, y := Binary32.ofFraction false 1 10,
         z := Binary32.ofFraction false 1 3 }],
    faces := [[0, 1, 2, 7], [2, 1, 3]] }

/-- The default colour of `DrawWireModel`, `{0,255,0,0}`. -/
def sampleColor : ColorBGR := { b := 0, g := 255, r := 0, a := 0 }

end WireRenderer

/-! ## Properties of the standard-library algorithms -/

section StdAlgorithmProofs

variable {α T : Type} [LinearOrder T]

theorem min_element_loop_mem (comp : α → α → Bool) (smallest : Nat × α) (first : Nat)
    (l : List α) : (min_element_loop comp smallest first l).2 ∈ smallest.2 :: l := by
  induction l generalizing smallest first with
  | nil => simp [min_element_loop]
  | cons x rest ih =>
    have h := ih (if comp x smallest.2 then (first, x) else smallest) (first + 1)
    simp only [min_element_loop]
    split_ifs at h ⊢ with hc
    · exact List.mem_cons_of_mem _ h
    · rcases List.mem_cons.1 h with h | h
      · rw [h]; exact List.mem_cons_self _ _
      · exact List.mem_cons_of_mem _ (List.mem_cons_of_mem _ h)

theorem max_element_loop_mem (comp : α → α → Bool) (largest : Nat × α) (first : Nat)
    (l : List α) : (max_element_loop comp largest first l).2 ∈ largest.2 :: l := by
  induction l generalizing largest first with
  | nil => simp [max_element_loop]
  | cons x rest ih =>
    have h := ih (if comp largest.2 x then (first, x) else largest) (first + 1)
    simp only [max_element_loop]
    split_ifs at h ⊢ with hc
    · exact List.mem_cons_of_mem _ h
    · rcases List.mem_cons.1 h with h | h
      · rw [h]; exact List.mem_cons_self _ _
      · exact List.mem_cons_of_mem _ (List.mem_cons_of_mem _ h)

theorem min_element_loop_le (k : α → T) (smallest : Nat × α) (first : Nat) (l : List α) :
    ∀ p ∈ smallest.2 :: l,
      k (min_element_loop (fun u v => decide (k u < k v)) smallest first l).2 ≤ k p := by
  induction l generalizing smallest first with
  | nil => simp [min_element_loop]
  | cons x rest ih =>
    intro p hp
    simp only [min_element_loop]
    have h := ih (if decide (k x < k smallest.2) = true then (first, x) else smallest) (first + 1)
    by_cases hc : k x < k smallest.2
    · simp only [hc, decide_True, if_true] at h ⊢
      rcases List.mem_cons.1 hp with hp | hp
      · rw [hp]
        exact le_trans (h x (List.mem_cons_self _ _)) (le_of_lt hc)
      · exact h p hp
    · simp only [hc, decide_False, if_false] at h ⊢
      rcases List.mem_cons.1 hp with hp | hp
      · rw [hp]; exact h smallest.2 (List.mem_cons_self _ _)
      · rcases List.mem_cons.1 hp with hp | hp
        · rw [hp]
          exact le_trans (h smallest.2 (List.mem_cons_self _ _)) (not_lt.1 hc)
        · exact h p (List.mem_cons_of_mem _ hp)

theorem le_max_element_loop (k : α → T) (largest : Nat × α) (first : Nat) (l : List α) :
    ∀ p ∈ largest.2 :: l,
      k p ≤ k (max_element_loop (fun u v => decide (k u < k v)) largest first l).2 := by
  induction l generalizing largest first with
  | nil => simp [max_element_loop]
  | cons x rest ih =>
    intro p hp
    simp only [max_element_loop]
    have h := ih (if decide (k largest.2 < k x) = true then (first, x) else largest) (first + 1)
    by_cases hc : k largest.2 < k x
    · simp only [hc, decide_True, if_true] at h ⊢
      rcases List.mem_cons.1 hp with hp | hp
      · rw [hp]
        exact le_trans (le_of_lt hc) (h x (List.mem_cons_self _ _))
      · exact h p hp
    · simp only [hc, decide_False, if_false] at h ⊢
      rcases List.mem_cons.1 hp with hp | hp
      · rw [hp]; exact h largest.2 (List.mem_cons_self _ _)
      · rcases List.mem_cons.1 hp with hp | hp
        · rw [hp]
          exact le_trans (not_lt.1 hc) (h largest.2 (List.mem_cons_self _ _))
        · exact h p (List.mem_cons_of_mem _ hp)

/-- The key of the element chosen by `std::min_element` is the element chosen by the
same loop run on the keys. -/
theorem min_element_loop_key (k : α → T) (i j i' j' : Nat) (x : α) (l : List α) :
    k (min_element_loop (fun u v => decide (k u < k v)) (i, x) j l).2 =
      (min_element_loop (fun u v : T => decide (u < v)) (i', k x) j' (l.map k)).2 := by
  induction l generalizing i j i' j' x with
  | nil => rfl
  | cons y rest ih =>
    simp only [min_element_loop, List.map_cons]
    by_cases hc : k y < k x
    · simp only [hc, decide_True, if_true]
      exact ih _ _ _ _ _
    · simp only [hc, decide_False, if_false]
      exact ih _ _ _ _ _

theorem max_element_loop_key (k : α → T) (i j i' j' : Nat) (x : α) (l : List α) :
    k (max_element_loop (fun u v => decide (k u < k v)) (i, x) j l).2 =
      (max_element_loop (fun u v : T => decide (u < v)) (i', k x) j' (l.map k)).2 := by
  induction l generalizing i j i' j' x with
  | nil => rfl
  | cons y rest ih =>
    simp only [max_element_loop, List.map_cons]
    by_cases hc : k x < k y
    · simp only [hc, decide_True, if_true]
      exact ih _ _ _ _ _
    · simp only [hc, decide_False, if_false]
      exact ih _ _ _ _ _

/-- The iterator kept by the loop of `std::min_element` points, in the whole range,
to the element kept with it. -/
theorem min_element_loop_getElem? (comp : α → α → Bool) (pre : List α) (i : Nat) (x : α)
    (l : List α) (h : pre[i]? = some x) :
    (pre ++ l)[(min_element_loop comp (i, x) pre.length l).1]? =
      some (min_element_loop comp (i, x) pre.length l).2 := by
  induction l generalizing pre i x with
  | nil =>
    simpa [min_element_loop] using h
  | cons y rest ih =>
    have hi : i < pre.length := (List.getElem?_eq_some.1 h).1
    have key : ∀ s : Nat × α, (pre ++ [y])[s.1]? = some s.2 →
        (pre ++ y :: rest)[(min_element_loop comp s (pre.length + 1) rest).1]? =
          some (min_element_loop comp s (pre.length + 1) rest).2 := by
      intro s hs
      have := ih (pre ++ [y]) s.1 s.2 hs
      simpa [List.append_assoc] using this
    simp only [min_element_loop]
    apply key
    split_ifs
    · simp
    · simp only [List.getElem?_append_left hi, h]

theorem max_element_loop_getElem? (comp : α → α → Bool) (pre : List α) (i : Nat) (x : α)
    (l : List α) (h : pre[i]? = some x) :
    (pre ++ l)[(max_element_loop comp (i, x) pre.length l).1]? =
      some (max_element_loop comp (i, x) pre.length l).2 := by
  induction l generalizing pre i x with
  | nil =>
    simpa [max_element_loop] using h
  | cons y rest ih =>
    have hi : i < pre.length := (List.getElem?_eq_some.1 h).1
    have key : ∀ s : Nat × α, (pre ++ [y])[s.1]? = some s.2 →
        (pre ++ y :: rest)[(max_element_loop comp s (pre.length + 1) rest).1]? =
          some (max_element_loop comp s (pre.length + 1) rest).2 := by
      intro s hs
      have := ih (pre ++ [y]) s.1 s.2 hs
      simpa [List.append_assoc] using this
    simp only [max_element_loop]
    apply key
    split_ifs
    · simp
    · simp only [List.getElem?_append_left hi, h]

/-- On a non-empty range the iterator of `std::min_element` can be read through. -/
theorem getElem?_min_element_cons (comp : α → α → Bool) (x : α) (rest : List α) :
    (x :: rest)[min_element comp (x :: rest)]? =
      some (min_element_loop comp (0, x) 1 rest).2 :=
  min_element_loop_getElem? comp [x] 0 x rest rfl

theorem getElem?_max_element_cons (comp : α → α → Bool) (x : α) (rest : List α) :
    (x :: rest)[max_element comp (x :: rest)]? =
      some (max_element_loop comp (0, x) 1 rest).2 :=
  max_element_loop_getElem? comp [x] 0 x rest rfl

theorem std_min3_eq (a b c : T) : std_min3 a b c = min a (min b c) := by
  have hle := min_element_loop_le (fun t : T => t) (0, a) 1 [b, c]
  have hmem := min_element_loop_mem (fun u v : T => decide (u < v)) (0, a) 1 [b, c]
  apply le_antisymm
  · exact le_min (hle a (by simp)) (le_min (hle b (by simp)) (hle c (by simp)))
  · simp only [List.mem_cons, List.mem_singleton, List.not_mem_nil, or_false] at hmem
    unfold std_min3
    rcases hmem with h | h | h <;> rw [h]
    · exact min_le_left _ _
    · exact le_trans (min_le_right _ _) (min_le_left _ _)
    · exact le_trans (min_le_right _ _) (min_le_right _ _)

theorem std_max3_eq (a b c : T) : std_max3 a b c = max a (max b c) := by
  have hle := le_max_element_loop (fun t : T => t) (0, a) 1 [b, c]
  have hmem := max_element_loop_mem (fun u v : T => decide (u < v)) (0, a) 1 [b, c]
  apply le_antisymm
  · simp only [List.mem_cons, List.mem_singleton, List.not_mem_nil, or_false] at hmem
    unfold std_max3
    rcases hmem with h | h | h <;> rw [h]
    · exact le_max_left _ _
    · exact le_trans (le_max_left _ _) (le_max_right _ _)
    · exact le_trans (le_max_right _ _) (le_max_right _ _)
  · exact max_le (hle a (by simp)) (max_le (hle b (by simp)) (hle c (by simp)))

end StdAlgorithmProofs

/-! ## Properties of the bounding boxes -/

section BoundingBoxProofs

variable {T : Type} [LinearOrder T]

/-- On a non-empty vector all four iterators of `FindBoundingBox2D` can be read through. -/
theorem FindBoundingBox2D_cons (p : Vector2D T) (ps : List (Vector2D T)) :
    FindBoundingBox2D (p :: ps) = some
      { topLeft :=
          { x := (min_element_loop lessX (0, p) 1 ps).2.x,
            y := (min_element_loop lessY (0, p) 1 ps).2.y },
        bottomRight :=
          { x := (max_element_loop lessX (0, p) 1 ps).2.x,
            y := (max_element_loop lessY (0, p) 1 ps).2.y } } := by
  unfold FindBoundingBox2D
  rw [getElem?_min_element_cons, getElem?_min_element_cons, getElem?_max_element_cons,
    getElem?_max_element_cons]
  rfl

/-- The generic builder on the three-element vector gives the triangle builder's box. -/
theorem FindBoundingBox2D_three (p0 p1 p2 : Vector2D T) :
    FindBoundingBox2D [p0, p1, p2] = some (FindTriangleBoundingBox2D p0 p1 p2) := by
  rw [FindBoundingBox2D_cons]
  have hx := min_element_loop_key (fun p : Vector2D T => p.x) 0 1 0 1 p0 [p1, p2]
  have hy := min_element_loop_key (fun p : Vector2D T => p.y) 0 1 0 1 p0 [p1, p2]
  have gx := max_element_loop_key (fun p : Vector2D T => p.x) 0 1 0 1 p0 [p1, p2]
  have gy := max_element_loop_key (fun p : Vector2D T => p.y) 0 1 0 1 p0 [p1, p2]
  simp only [List.map_cons, List.map_nil] at hx hy gx gy
  simp only [FindTriangleBoundingBox2D, std_min3, std_max3]
  unfold lessX lessY
  rw [hx, hy, gx, gy]

theorem Box2D.Contains.refl (box : Box2D T) : box.Contains box :=
  ⟨le_refl _, le_refl _, le_refl _, le_refl _⟩

end BoundingBoxProofs

/-! ## Claims on the bounding boxes -/

section BoundingBoxClaims

variable {T : Type} [LinearOrder T]

/-- C1: for every three points, `FindTriangleBoundingBox2D` returns the box whose
`topLeft` holds the minimum of the three `x` and the minimum of the three `y`, and
whose `bottomRight` holds the two maxima; on (0,0), (10,0), (0,10) it returns
`topLeft` = (0,0) and `bottomRight` = (10,10). -/
theorem FindTriangleBoundingBox2D_min_max (p0 p1 p2 : Vector2D T) :
    FindTriangleBoundingBox2D p0 p1 p2 =
        { topLeft := { x := min p0.x (min p1.x p2.x), y := min p0.y (min p1.y p2.y) },
          bottomRight := { x := max p0.x (max p1.x p2.x), y := max p0.y (max p1.y p2.y) } } ∧
      FindTriangleBoundingBox2D (T := Int) { x := 0, y := 0 } { x := 10, y := 0 } { x := 0, y := 10 } =
        { topLeft := { x := 0, y := 0 }, bottomRight := { x := 10, y := 10 } } := by
  refine ⟨?_, by decide⟩
  simp only [FindTriangleBoundingBox2D, std_min3_eq, std_max3_eq]

/-- C2: on a non-empty vector `FindBoundingBox2D` returns a box that encloses every
point, each of whose four coordinates is the coordinate of some point of the
vector, and that is contained in every box enclosing all the points. -/
theorem FindBoundingBox2D_smallest (points : List (Vector2D T)) (hne : points ≠ []) :
    ∃ box, FindBoundingBox2D points = some box ∧
      (∀ p ∈ points, box.topLeft.x ≤ p.x ∧ p.x ≤ box.bottomRight.x ∧
        box.topLeft.y ≤ p.y ∧ p.y ≤ box.bottomRight.y) ∧
      (∃ p ∈ points, p.x = box.topLeft.x) ∧ (∃ p ∈ points, p.y = box.topLeft.y) ∧
      (∃ p ∈ points, p.x = box.bottomRight.x) ∧ (∃ p ∈ points, p.y = box.bottomRight.y) ∧
      (∀ other : Box2D T, (∀ p ∈ points, other.Encloses p) → other.Contains box) := by
  cases points with
  | nil => exact absurd rfl hne
  | cons p ps =>
    have hminX := min_element_loop_le (fun q : Vector2D T => q.x) (0, p) 1 ps
    have hminY := min_element_loop_le (fun q : Vector2D T => q.y) (0, p) 1 ps
    have hmaxX := le_max_element_loop (fun q : Vector2D T => q.x) (0, p) 1 ps
    have hmaxY := le_max_element_loop (fun q : Vector2D T => q.y) (0, p) 1 ps
    have mminX := min_element_loop_mem (lessX (T := T)) (0, p) 1 ps
    have mminY := min_element_loop_mem (lessY (T := T)) (0, p) 1 ps
    have mmaxX := max_element_loop_mem (lessX (T := T)) (0, p) 1 ps
    have mmaxY := max_element_loop_mem (lessY (T := T)) (0, p) 1 ps
    refine ⟨_, FindBoundingBox2D_cons p ps, ?_, ⟨_, mminX, rfl⟩, ⟨_, mminY, rfl⟩,
      ⟨_, mmaxX, rfl⟩, ⟨_, mmaxY, rfl⟩, ?_⟩
    · intro q hq
      exact ⟨hminX q hq, hmaxX q hq, hminY q hq, hmaxY q hq⟩
    · intro other henc
      exact ⟨(henc _ mminX).1, (henc _ mminY).2.2.1, (henc _ mmaxX).2.1, (henc _ mmaxY).2.2.2⟩

/-- C3: the box of `FindTriangleBoundingBox2D` on any three points, and the box of
`FindBoundingBox2D` on any non-empty vector, have `topLeft.x ≤ bottomRight.x` and
`topLeft.y ≤ bottomRight.y`. -/
theorem boundingBox_not_inverted (p0 p1 p2 : Vector2D T) (points : List (Vector2D T))
    (hne : points ≠ []) :
    ((FindTriangleBoundingBox2D p0 p1 p2).topLeft.x ≤ (FindTriangleBoundingBox2D p0 p1 p2).bottomRight.x ∧
      (FindTriangleBoundingBox2D p0 p1 p2).topLeft.y ≤ (FindTriangleBoundingBox2D p0 p1 p2).bottomRight.y) ∧
    ∃ box, FindBoundingBox2D points = some box ∧
      box.topLeft.x ≤ box.bottomRight.x ∧ box.topLeft.y ≤ box.bottomRight.y := by
  constructor
  · simp only [FindTriangleBoundingBox2D, std_min3_eq, std_max3_eq]
    exact ⟨le_trans (min_le_left _ _) (le_max_left _ _),
      le_trans (min_le_left _ _) (le_max_left _ _)⟩
  · cases points with
    | nil => exact absurd rfl hne
    | cons p ps =>
      refine ⟨_, FindBoundingBox2D_cons p ps, ?_, ?_⟩
      · exact le_trans
          (min_element_loop_le (fun q : Vector2D T => q.x) (0, p) 1 ps p (List.mem_cons_self _ _))
          (le_max_element_loop (fun q : Vector2D T => q.x) (0, p) 1 ps p (List.mem_cons_self _ _))
      · exact le_trans
          (min_element_loop_le (fun q : Vector2D T => q.y) (0, p) 1 ps p (List.mem_cons_self _ _))
          (le_max_element_loop (fun q : Vector2D T => q.y) (0, p) 1 ps p (List.mem_cons_self _ _))

/-- C4: for every three points, `FindBoundingBox2D` applied to the vector
`[p0, p1, p2]` returns exactly the box of `FindTriangleBoundingBox2D(p0, p1, p2)`. -/
theorem FindTriangleBoundingBox2D_eq_FindBoundingBox2D (p0 p1 p2 : Vector2D T) :
    FindBoundingBox2D [p0, p1, p2] = some (FindTriangleBoundingBox2D p0 p1 p2) ∧
      (∀ box, FindBoundingBox2D [p0, p1, p2] = some box →
        box.topLeft = (FindTriangleBoundingBox2D p0 p1 p2).topLeft ∧
          box.bottomRight = (FindTriangleBoundingBox2D p0 p1 p2).bottomRight) := by
  refine ⟨FindBoundingBox2D_three p0 p1 p2, ?_⟩
  intro box hbox
  rw [FindBoundingBox2D_three] at hbox
  rw [← Option.some.inj hbox]
  exact ⟨rfl, rfl⟩

/-- C6, as stated, fails: no three integer vertices make the box of
`FindBoundingBox2D` on `[p0, p1, p2]` differ from, while containing, the box of
`FindTriangleBoundingBox2D(p0, p1, p2)`. -/
theorem generic_box_strictly_larger_never :
    ¬ ∃ p0 p1 p2 : Vector2D Int, ∃ box : Box2D Int,
        FindBoundingBox2D [p0, p1, p2] = some box ∧
          box ≠ FindTriangleBoundingBox2D p0 p1 p2 ∧
          box.Contains (FindTriangleBoundingBox2D p0 p1 p2) := by
  rintro ⟨p0, p1, p2, box, hbox, hne, -⟩
  rw [FindBoundingBox2D_three] at hbox
  exact hne (Option.some.inj hbox).symm

/-- C6, amended: for every three vertices the box of `FindBoundingBox2D` on
`[p0, p1, p2]` and the box of `FindTriangleBoundingBox2D(p0, p1, p2)` contain each
other, so the generic box is never strictly larger. -/
theorem generic_box_as_precise (p0 p1 p2 : Vector2D T) :
    ∃ box, FindBoundingBox2D [p0, p1, p2] = some box ∧
      box.Contains (FindTriangleBoundingBox2D p0 p1 p2) ∧
      (FindTriangleBoundingBox2D p0 p1 p2).Contains box ∧
      box = FindTriangleBoundingBox2D p0 p1 p2 :=
  ⟨_, FindBoundingBox2D_three p0 p1 p2, Box2D.Contains.refl _, Box2D.Contains.refl _, rfl⟩

/-- C9: `FindBoundingBox2D` returns a box exactly when the vector is non-empty. Each
of the four iterators it reads through is `points.end()` exactly when the vector
is empty, and a position inside the vector otherwise; on the empty vector none of
the four lookups finds an element. -/
theorem FindBoundingBox2D_isSome_iff (points : List (Vector2D T)) :
    ((FindBoundingBox2D points).isSome = true ↔ points ≠ []) ∧
      (FindBoundingBox2D points = none ↔ points = []) ∧
      ((min_element lessX points = points.length ↔ points = []) ∧
        (min_element lessY points = points.length ↔ points = []) ∧
        (max_element lessX points = points.length ↔ points = []) ∧
        (max_element lessY points = points.length ↔ points = [])) ∧
      ((min_element lessX points < points.length ↔ points ≠ []) ∧
        (min_element lessY points < points.length ↔ points ≠ []) ∧
        (max_element lessX points < points.length ↔ points ≠ []) ∧
        (max_element lessY points < points.length ↔ points ≠ [])) ∧
      (([] : List (Vector2D T))[min_element lessX ([] : List (Vector2D T))]? = none ∧
        ([] : List (Vector2D T))[min_element lessY ([] : List (Vector2D T))]? = none ∧
        ([] : List (Vector2D T))[max_element lessX ([] : List (Vector2D T))]? = none ∧
        ([] : List (Vector2D T))[max_element lessY ([] : List (Vector2D T))]? = none) := by
  cases points with
  | nil =>
    refine ⟨?_, ?_, ⟨?_, ?_, ?_, ?_⟩, ⟨?_, ?_, ?_, ?_⟩, rfl, rfl, rfl, rfl⟩ <;>
      simp [FindBoundingBox2D, min_element, max_element]
  | cons p ps =>
    have h1 := (List.getElem?_eq_some.1 (getElem?_min_element_cons (lessX (T := T)) p ps)).1
    have h2 := (List.getElem?_eq_some.1 (getElem?_min_element_cons (lessY (T := T)) p ps)).1
    have h3 := (List.getElem?_eq_some.1 (getElem?_max_element_cons (lessX (T := T)) p ps)).1
    have h4 := (List.getElem?_eq_some.1 (getElem?_max_element_cons (lessY (T := T)) p ps)).1
    refine ⟨?_, ?_, ⟨?_, ?_, ?_, ?_⟩, ⟨?_, ?_, ?_, ?_⟩, rfl, rfl, rfl, rfl⟩
    · simp [FindBoundingBox2D_cons]
    · simp [FindBoundingBox2D_cons]
    · simpa using ne_of_lt h1
    · simpa using ne_of_lt h2
    · simpa using ne_of_lt h3
    · simpa using ne_of_lt h4
    · simpa using h1
    · simpa using h2
    · simpa using h3
    · simpa using h4

/-- C2 at `samplePoints`: the vector is non-empty, so the box exists with all the
stated properties. -/
theorem FindBoundingBox2D_smallest_witness :
    samplePoints ≠ [] ∧
    ∃ box, FindBoundingBox2D samplePoints = some box ∧
      (∀ p ∈ samplePoints, box.topLeft.x ≤ p.x ∧ p.x ≤ box.bottomRight.x ∧
        box.topLeft.y ≤ p.y ∧ p.y ≤ box.bottomRight.y) ∧
      (∃ p ∈ samplePoints, p.x = box.topLeft.x) ∧ (∃ p ∈ samplePoints, p.y = box.topLeft.y) ∧
      (∃ p ∈ samplePoints, p.x = box.bottomRight.x) ∧
      (∃ p ∈ samplePoints, p.y = box.bottomRight.y) ∧
      (∀ other : Box2D Int, (∀ p ∈ samplePoints, other.Encloses p) → other.Contains box) :=
  ⟨by decide, FindBoundingBox2D_smallest samplePoints (by decide)⟩

/-- C3 at the triangle (0,0), (10,0), (0,10) and at `samplePoints`. -/
theorem boundingBox_not_inverted_witness :
    samplePoints ≠ [] ∧
    (((FindTriangleBoundingBox2D (T := Int) ⟨0, 0⟩ ⟨10, 0⟩ ⟨0, 10⟩).topLeft.x ≤
        (FindTriangleBoundingBox2D (T := Int) ⟨0, 0⟩ ⟨10, 0⟩ ⟨0, 10⟩).bottomRight.x ∧
      (FindTriangleBoundingBox2D (T := Int) ⟨0, 0⟩ ⟨10, 0⟩ ⟨0, 10⟩).topLeft.y ≤
        (FindTriangleBoundingBox2D (T := Int) ⟨0, 0⟩ ⟨10, 0⟩ ⟨0, 10⟩).bottomRight.y) ∧
    ∃ box, FindBoundingBox2D samplePoints = some box ∧
      box.topLeft.x ≤ box.bottomRight.x ∧ box.topLeft.y ≤ box.bottomRight.y) :=
  ⟨by decide, boundingBox_not_inverted ⟨0, 0⟩ ⟨10, 0⟩ ⟨0, 10⟩ samplePoints (by decide)⟩

end BoundingBoxClaims

/-! ## Properties of binary32 rounding -/

section Binary32Proofs

namespace Binary32

theorem signed_false (k : Nat) : signed false k = (k : Int) := rfl

theorem signed_true (k : Nat) : signed true k = -(k : Int) := rfl

theorem roundHalfEven_le {n d c : Nat} (h : n ≤ c * d) (hd : 0 < d) : roundHalfEven n d ≤ c := by
  have hq : n / d ≤ c := Nat.div_le_of_le_mul (by rw [Nat.mul_comm]; exact h)
  have hmod := Nat.div_add_mod n d
  unfold roundHalfEven
  rcases Nat.lt_or_ge (n / d) c with hc | hc
  · split_ifs <;> omega
  · have hqc : n / d = c := le_antisymm hq hc
    rw [hqc] at hmod
    rw [Nat.mul_comm c d] at h
    have hr : n % d = 0 := by omega
    simp [hr, hd, hqc]

theorem le_roundHalfEven {n d c : Nat} (h : c * d ≤ n) (hd : 0 < d) : c ≤ roundHalfEven n d := by
  have hq : c ≤ n / d := (Nat.le_div_iff_mul_le hd).2 h
  unfold roundHalfEven
  split_ifs <;> omega

/-- The spacing is a power of two that, unless it is 1, is at most `t / 2 ^ 23`. -/
theorem spacingLoop_spec (fuel t : Nat) (h : t ≤ fuel) :
    ∃ s, spacingLoop fuel t = 2 ^ s ∧ (s = 0 ∨ 2 ^ (23 + s) ≤ t) := by
  induction fuel generalizing t with
  | zero => exact ⟨0, rfl, Or.inl rfl⟩
  | succ fuel ih =>
    by_cases ht : t < 2 ^ 24
    · exact ⟨0, by rw [spacingLoop, if_pos ht, pow_zero], Or.inl rfl⟩
    · have ht' : 2 ^ 24 ≤ t := Nat.le_of_not_lt ht
      have hpos : 0 < t := lt_of_lt_of_le (by positivity) ht'
      obtain ⟨s, hs, hs'⟩ := ih (t / 2) (by omega)
      refine ⟨s + 1, ?_, Or.inr ?_⟩
      · rw [spacingLoop, if_neg ht, hs, pow_succ, Nat.mul_comm]
      · have hdiv : t / 2 * 2 ≤ t := Nat.div_mul_le_self t 2
        rcases hs' with rfl | hs'
        · exact ht'
        · calc 2 ^ (23 + (s + 1)) = 2 ^ (23 + s) * 2 := by rw [← Nat.add_assoc, pow_succ]
            _ ≤ t / 2 * 2 := Nat.mul_le_mul_right 2 hs'
            _ ≤ t := hdiv

/-- Rounding never passes a binary32 magnitude that bounds the exact value from above. -/
theorem roundMag_le {a d B : Nat} (hd : 0 < d) (hB : ∃ m e, m < 2 ^ 24 ∧ B = m * 2 ^ e)
    (h : a ≤ B * d) : roundMag a d ≤ B := by
  obtain ⟨m, e, hm, rfl⟩ := hB
  obtain ⟨s, hs, hs'⟩ := spacingLoop_spec (a / d) (a / d) le_rfl
  unfold roundMag spacing
  rw [hs]
  by_cases hes : s ≤ e
  · obtain ⟨k, rfl⟩ := Nat.exists_eq_add_of_le hes
    have hle : roundHalfEven a (d * 2 ^ s) ≤ m * 2 ^ k := by
      apply roundHalfEven_le _ (by positivity)
      calc a ≤ m * 2 ^ (s + k) * d := h
        _ = m * 2 ^ k * (d * 2 ^ s) := by ring
    calc 2 ^ s * roundHalfEven a (d * 2 ^ s) ≤ 2 ^ s * (m * 2 ^ k) := Nat.mul_le_mul_left _ hle
      _ = m * 2 ^ (s + k) := by ring
  · exfalso
    have hs0 : s ≠ 0 := by omega
    have h1 : 2 ^ (23 + s) ≤ a / d := hs'.resolve_left hs0
    have h2 : a / d ≤ m * 2 ^ e := Nat.div_le_of_le_mul (by rw [Nat.mul_comm]; exact h)
    have h3 : m * 2 ^ e < 2 ^ 24 * 2 ^ e := Nat.mul_lt_mul_of_pos_right hm (by positivity)
    have h4 : 2 ^ 24 * 2 ^ e ≤ 2 ^ (23 + s) := by
      rw [← pow_add]
      exact Nat.pow_le_pow_right (by norm_num) (by omega)
    omega

/-- Rounding never falls below a binary32 magnitude that bounds the exact value from below. -/
theorem le_roundMag {a d B : Nat} (hd : 0 < d) (hB : ∃ m e, m < 2 ^ 24 ∧ B = m * 2 ^ e)
    (h : B * d ≤ a) : B ≤ roundMag a d := by
  obtain ⟨m, e, hm, rfl⟩ := hB
  obtain ⟨s, hs, hs'⟩ := spacingLoop_spec (a / d) (a / d) le_rfl
  unfold roundMag spacing
  rw [hs]
  by_cases hes : s ≤ e
  · obtain ⟨k, rfl⟩ := Nat.exists_eq_add_of_le hes
    have hle : m * 2 ^ k ≤ roundHalfEven a (d * 2 ^ s) := by
      apply le_roundHalfEven _ (by positivity)
      calc m * 2 ^ k * (d * 2 ^ s) = m * 2 ^ (s + k) * d := by ring
        _ ≤ a := h
    calc m * 2 ^ (s + k) = 2 ^ s * (m * 2 ^ k) := by ring
      _ ≤ 2 ^ s * roundHalfEven a (d * 2 ^ s) := Nat.mul_le_mul_left _ hle
  · have hs0 : s ≠ 0 := by omega
    have h1 : 2 ^ (23 + s) ≤ a / d := hs'.resolve_left hs0
    have h2 : 2 ^ (23 + s) * d ≤ a := (Nat.le_div_iff_mul_le hd).1 h1
    have hle : 2 ^ 23 ≤ roundHalfEven a (d * 2 ^ s) := by
      apply le_roundHalfEven _ (by positivity)
      calc 2 ^ 23 * (d * 2 ^ s) = 2 ^ (23 + s) * d := by ring
        _ ≤ a := h2
    have h3 : m * 2 ^ e < 2 ^ 24 * 2 ^ e := Nat.mul_lt_mul_of_pos_right hm (by positivity)
    have h4 : 2 ^ 24 * 2 ^ e ≤ 2 ^ (23 + s) := by
      rw [← pow_add]
      exact Nat.pow_le_pow_right (by norm_num) (by omega)
    calc m * 2 ^ e ≤ 2 ^ (23 + s) := le_of_lt (lt_of_lt_of_le h3 h4)
      _ = 2 ^ s * 2 ^ 23 := by ring
      _ ≤ 2 ^ s * roundHalfEven a (d * 2 ^ s) := Nat.mul_le_mul_left _ hle

/-- A binary32 magnitude rounds to itself. -/
theorem roundMag_exact {d B : Nat} (hd : 0 < d) (hB : ∃ m e, m < 2 ^ 24 ∧ B = m * 2 ^ e) :
    roundMag (B * d) d = B :=
  le_antisymm (roundMag_le hd hB le_rfl) (le_roundMag hd hB le_rfl)

theorem round_of_le {negative : Bool} {a d B : Nat} (hd : 0 < d)
    (hB : ∃ m e, m < 2 ^ 24 ∧ B = m * 2 ^ e) (hlt : B < 2 ^ 128 * 2 ^ 149) (h : a ≤ B * d) :
    ∃ K, round negative a d = finite negative K ∧ K ≤ B := by
  have hle := roundMag_le hd hB h
  refine ⟨roundMag a d, ?_, hle⟩
  unfold round
  rw [if_pos (lt_of_le_of_lt hle hlt)]

theorem round_exact {negative : Bool} {d B : Nat} (hd : 0 < d)
    (hB : ∃ m e, m < 2 ^ 24 ∧ B = m * 2 ^ e) (hlt : B < 2 ^ 128 * 2 ^ 149) :
    round negative (B * d) d = finite negative B := by
  unfold round
  rw [roundMag_exact hd hB, if_pos hlt]

/-- A binary32 magnitude scaled by a power of two is a binary32 magnitude. -/
theorem magnitude_scaled {n : Nat} (h : ∃ m e, m < 2 ^ 24 ∧ n = m * 2 ^ e) (j : Nat) :
    ∃ m e, m < 2 ^ 24 ∧ n * 2 ^ j = m * 2 ^ e := by
  obtain ⟨m, e, hm, rfl⟩ := h
  exact ⟨m, e + j, hm, by rw [pow_add, Nat.mul_assoc]⟩

/-- Every whole number up to 2^24 has at most 24 significant bits. -/
theorem magnitude_of_le {n : Nat} (h : n ≤ 2 ^ 24) : ∃ m e, m < 2 ^ 24 ∧ n = m * 2 ^ e := by
  rcases Nat.lt_or_ge n (2 ^ 24) with hn | hn
  · exact ⟨n, 0, hn, by rw [pow_zero, Nat.mul_one]⟩
  · exact ⟨2 ^ 23, 1, by norm_num, by rw [le_antisymm h hn]; norm_num⟩

theorem scaled_lt_overflow {n j : Nat} (h : n < 2 ^ 31) (hj : j ≤ 150) :
    n * 2 ^ j < 2 ^ 128 * 2 ^ 149 :=
  calc n * 2 ^ j ≤ 2 ^ 31 * 2 ^ 150 :=
        Nat.mul_le_mul (le_of_lt h) (Nat.pow_le_pow_right (by norm_num) hj)
    _ = 2 ^ 32 * 2 ^ 149 := by norm_num
    _ < 2 ^ 128 * 2 ^ 149 := Nat.mul_lt_mul_of_pos_right (by norm_num) (by positivity)

/-- Conversion to `float` of a whole number below 2^31 with at most 24 significant
bits is exact. -/
theorem ofInt_natCast {n : Nat} (hrep : ∃ m e, m < 2 ^ 24 ∧ n = m * 2 ^ e) (hlt : n < 2 ^ 31) :
    ofInt (n : Int) = finite false (n * 2 ^ 149) := by
  unfold ofInt
  have h1 : decide ((n : Int) < 0) = false := by simp
  have h2 : (n : Int).natAbs = n := Int.natAbs_ofNat n
  rw [h1, h2]
  have := @round_exact false 1 (n * 2 ^ 149) (by norm_num)
    (magnitude_scaled hrep 149) (scaled_lt_overflow hlt (by norm_num))
  rwa [Nat.mul_one] at this

/-- Half of such a whole number is exact. -/
theorem div_two_natCast {n : Nat} (hrep : ∃ m e, m < 2 ^ 24 ∧ n = m * 2 ^ e) (hlt : n < 2 ^ 31) :
    div (ofInt (n : Int)) two = finite false (n * 2 ^ 148) := by
  rw [ofInt_natCast hrep hlt]
  unfold div two
  have hne : (2 : Nat) ^ 150 ≠ 0 := by positivity
  simp only [hne, if_false, Bool.xor_false]
  have := @round_exact false (2 ^ 150) (n * 2 ^ 148) (by positivity)
    (magnitude_scaled hrep 148) (scaled_lt_overflow hlt (by norm_num))
  have e : n * 2 ^ 149 * 2 ^ 149 = n * 2 ^ 148 * 2 ^ 150 := by ring
  rw [e]
  exact this

theorem ofInt_one : ofInt 1 = finite false (2 ^ 149) := by decide!

theorem ofInt_neg_one : ofInt (-1) = finite true (2 ^ 149) := by decide!

/-- Adding `1.0f` to a value of magnitude at most 1 gives a value between 0 and 2. -/
theorem add_one_of_le (negative : Bool) {k : Nat} (hk : k ≤ 2 ^ 149) :
    ∃ ka, add (finite negative k) one = finite false ka ∧ ka ≤ 2 ^ 150 := by
  unfold add one
  by_cases hz : signed negative k + signed false (2 ^ 149) = 0
  · refine ⟨0, ?_, Nat.zero_le _⟩
    simp only [hz, if_true, Bool.and_false]
  · have hk' : ((k : Nat) : Int) ≤ ((2 ^ 149 : Nat) : Int) := by exact_mod_cast hk
    have hnn : 0 ≤ signed negative k + signed false (2 ^ 149) := by
      cases negative <;> simp only [signed_true, signed_false] <;> omega
    have hup : signed negative k + signed false (2 ^ 149) ≤ ((2 ^ 150 : Nat) : Int) := by
      have e : ((2 ^ 150 : Nat) : Int) = ((2 ^ 149 : Nat) : Int) + ((2 ^ 149 : Nat) : Int) := by
        norm_num
      cases negative <;> simp only [signed_true, signed_false] <;> omega
    have hneg : decide (signed negative k + signed false (2 ^ 149) < 0) = false := by
      simp only [decide_eq_false_iff_not, not_lt]; exact hnn
    simp only [hz, if_false, hneg]
    have habs : (signed negative k + signed false (2 ^ 149)).natAbs ≤ 2 ^ 150 := by
      have := Int.natAbs_of_nonneg hnn
      omega
    obtain ⟨K, hK, hKle⟩ := @round_of_le false
      (signed negative k + signed false (2 ^ 149)).natAbs 1 (2 ^ 150) (by norm_num)
      ⟨1, 150, by norm_num, by ring⟩ (by norm_num) (by rw [Nat.mul_one]; exact habs)
    exact ⟨K, hK, hKle⟩

theorem add_one_one : add (finite false (2 ^ 149)) one = finite false (2 ^ 150) := by decide!

theorem add_neg_one_one : add (finite true (2 ^ 149)) one = finite false 0 := by decide!

/-- Multiplying by `-1` keeps a magnitude of at most 1 at most 1. -/
theorem mul_neg_one_of_le (negative : Bool) {k : Nat} (hk : k ≤ 2 ^ 149) :
    ∃ k', mul (finite negative k) (ofInt (-1)) = finite (xor negative true) k' ∧ k' ≤ 2 ^ 149 := by
  rw [ofInt_neg_one]
  unfold mul
  exact round_of_le (by positivity) ⟨1, 149, by norm_num, by ring⟩ (by norm_num)
    (Nat.mul_le_mul_right _ hk)

theorem mul_one_neg_one : mul (finite false (2 ^ 149)) (ofInt (-1)) = finite true (2 ^ 149) := by
  decide!

theorem mul_neg_one_neg_one : mul (ofInt (-1)) (ofInt (-1)) = finite false (2 ^ 149) := by
  decide!

/-- A value between `-1` and `1` is finite, of magnitude at most 1. -/
theorem finite_of_le_one {f : Binary32}
    (h : le (ofInt (-1)) f = true ∧ le f (ofInt 1) = true) :
    ∃ negative k, f = finite negative k ∧ k ≤ 2 ^ 149 := by
  rw [ofInt_neg_one, ofInt_one] at h
  obtain ⟨h1, h2⟩ := h
  cases f with
  | finite negative k =>
    refine ⟨negative, k, rfl, ?_⟩
    simp only [le, decide_eq_true_eq] at h1 h2
    cases negative
    · simp only [signed_false] at h2
      exact_mod_cast h2
    · simp only [signed_true] at h1
      have : ((k : Nat) : Int) ≤ ((2 ^ 149 : Nat) : Int) := by omega
      exact_mod_cast this
  | inf negative =>
    cases negative
    · simp [le] at h2
    · simp [le] at h1
  | nan => simp [le] at h1

end Binary32

/-- Scaling a value between 0 and 2 by half an extent that is a binary32 number
below 2^31, and cutting it to an `int`, gives a defined position between 0 and the
extent. -/
theorem static_cast_int_scaled {ka extent : Nat} (hka : ka ≤ 2 ^ 150)
    (hrep : ∃ m e, m < 2 ^ 24 ∧ extent = m * 2 ^ e) (hlt : extent < 2 ^ 31) :
    ∃ x : Int,
      static_cast_int
          (Binary32.mul (Binary32.finite false ka)
            (Binary32.div (Binary32.ofInt (extent : Int)) Binary32.two)) = some x ∧
        0 ≤ x ∧ x ≤ (extent : Int) := by
  rw [Binary32.div_two_natCast hrep hlt]
  unfold Binary32.mul
  simp only [Bool.xor_false]
  obtain ⟨K, hK, hKle⟩ := @Binary32.round_of_le false (ka * (extent * 2 ^ 148)) (2 ^ 149)
    (extent * 2 ^ 149) (by positivity)
    (Binary32.magnitude_scaled hrep 149) (Binary32.scaled_lt_overflow hlt (by norm_num))
    (by
      calc ka * (extent * 2 ^ 148) ≤ 2 ^ 150 * (extent * 2 ^ 148) := Nat.mul_le_mul_right _ hka
        _ = extent * 2 ^ 149 * 2 ^ 149 := by ring)
  rw [hK]
  have hq : K / 2 ^ 149 ≤ extent := Nat.div_le_of_le_mul (by rw [Nat.mul_comm]; exact hKle)
  have hq' : ((K / 2 ^ 149 : Nat) : Int) ≤ (extent : Int) := by exact_mod_cast hq
  have hext' : ((extent : Nat) : Int) < 2 ^ 31 := by exact_mod_cast hlt
  have hnn : (0 : Int) ≤ ((K / 2 ^ 149 : Nat) : Int) := Int.ofNat_nonneg _
  refine ⟨((K / 2 ^ 149 : Nat) : Int), ?_, hnn, hq'⟩
  unfold static_cast_int
  simp only [Binary32.signed_false]
  rw [if_pos]
  constructor
  · exact lt_of_le_of_lt hq' hext'
  · calc -(2 ^ 31 : Int) ≤ 0 := by norm_num
      _ ≤ _ := hnn

/-- The value 2 scaled by half such an extent is the extent itself. -/
theorem static_cast_int_scaled_two {extent : Nat}
    (hrep : ∃ m e, m < 2 ^ 24 ∧ extent = m * 2 ^ e) (hlt : extent < 2 ^ 31) :
    static_cast_int
        (Binary32.mul (Binary32.finite false (2 ^ 150))
          (Binary32.div (Binary32.ofInt (extent : Int)) Binary32.two)) = some (extent : Int) := by
  rw [Binary32.div_two_natCast hrep hlt]
  unfold Binary32.mul
  simp only [Bool.xor_false]
  have e : 2 ^ 150 * (extent * 2 ^ 148) = extent * 2 ^ 149 * 2 ^ 149 := by ring
  rw [e, Binary32.round_exact (by positivity) (Binary32.magnitude_scaled hrep 149)
    (Binary32.scaled_lt_overflow hlt (by norm_num))]
  have hext' : ((extent : Nat) : Int) < 2 ^ 31 := by exact_mod_cast hlt
  have hnn : (0 : Int) ≤ ((extent : Nat) : Int) := Int.ofNat_nonneg _
  unfold static_cast_int
  simp only [Binary32.signed_false]
  rw [Nat.mul_div_cancel _ (by positivity : 0 < 2 ^ 149), if_pos]
  constructor
  · exact hext'
  · calc -(2 ^ 31 : Int) ≤ 0 := by norm_num
      _ ≤ _ := hnn

/-- The value 0 scaled by half such an extent is 0. -/
theorem static_cast_int_scaled_zero {extent : Nat}
    (hrep : ∃ m e, m < 2 ^ 24 ∧ extent = m * 2 ^ e) (hlt : extent < 2 ^ 31) :
    static_cast_int
        (Binary32.mul (Binary32.finite false 0)
          (Binary32.div (Binary32.ofInt (extent : Int)) Binary32.two)) = some 0 := by
  rw [Binary32.div_two_natCast hrep hlt]
  unfold Binary32.mul
  simp only [Bool.xor_false]
  have e : 0 * (extent * 2 ^ 148) = 0 * 2 ^ 149 := by ring
  rw [e, Binary32.round_exact (by positivity) ⟨0, 0, by norm_num, by ring⟩ (by positivity)]
  unfold static_cast_int
  simp [Binary32.signed]

/-- Rounding at work: 0.1f and 1/3 as binary32 numbers, a tie going to the even
neighbour, the largest finite number and overflow past it, and a subnormal tie. -/
theorem Binary32.round_examples :
    Binary32.ofFraction false 1 10 = Binary32.finite false (13421773 * 2 ^ 122) ∧
      Binary32.ofFraction false 1 3 = Binary32.finite false (11184811 * 2 ^ 124) ∧
      Binary32.ofInt 16777217 = Binary32.finite false (16777216 * 2 ^ 149) ∧
      Binary32.ofInt 16777219 = Binary32.finite false (16777220 * 2 ^ 149) ∧
      Binary32.add (Binary32.finite false (16777215 * 2 ^ 253)) (Binary32.finite false (2 ^ 252 - 1)) =
        Binary32.finite false (16777215 * 2 ^ 253) ∧
      Binary32.add (Binary32.finite false (16777215 * 2 ^ 253)) (Binary32.finite false (2 ^ 252)) =
        Binary32.inf false ∧
      Binary32.mul (Binary32.finite false 3) (Binary32.ofFraction false 1 2) =
        Binary32.finite false 2 ∧
      Binary32.mul (Binary32.finite true 1) (Binary32.ofFraction false 1 2) =
        Binary32.finite true 0 := by
  decide!

end Binary32Proofs

/-! ## Properties of the wire renderer -/

section WireRendererProofs

theorem vertexAt_isSome_iff (vertices : List (Vector3D Binary32)) (index : Int) :
    (vertexAt vertices index).isSome = true ↔ 0 ≤ index ∧ index < (vertices.length : Int) := by
  unfold vertexAt
  by_cases h : index < 0
  · simp only [h, if_true, Option.isSome_none]
    constructor
    · intro h'; exact absurd h' (by decide)
    · intro h'; omega
  · simp only [h, if_false]
    rw [Option.isSome_iff_exists]
    constructor
    · rintro ⟨v, hv⟩
      have := (List.getElem?_eq_some.1 hv).1
      omega
    · intro hi
      exact ⟨_, List.getElem?_eq_getElem (by omega)⟩

/-- A vertex lookup that succeeds reads the vertex at that position of the sequence. -/
theorem vertexAt_eq_some_iff (vertices : List (Vector3D Binary32)) (index : Int)
    (v : Vector3D Binary32) :
    vertexAt vertices index = some v ↔ ∃ n : Nat, index = (n : Int) ∧ vertices[n]? = some v := by
  unfold vertexAt
  constructor
  · intro h
    by_cases hneg : index < 0
    · simp [hneg] at h
    · rw [if_neg hneg] at h
      exact ⟨index.toNat, (Int.toNat_of_nonneg (not_lt.1 hneg)).symm, h⟩
  · rintro ⟨n, rfl, hn⟩
    have hneg : ¬ ((n : Int) < 0) := not_lt.2 (Int.ofNat_nonneg n)
    rw [if_neg hneg, Int.toNat_ofNat]
    exact hn

theorem toWindowX_congr {image image' : TextureBuffer} (h : image'.width = image.width)
    (v : Vector3D Binary32) : toWindowX image' v = toWindowX image v := by
  simp only [toWindowX, TextureBuffer.GetWidth, h]

theorem toWindowY_congr {image image' : TextureBuffer} (h : image'.height = image.height)
    (v : Vector3D Binary32) : toWindowY image' v = toWindowY image v := by
  simp only [toWindowY, TextureBuffer.GetHeight, h]

/-- The projection of `DrawWireModel` is the window point of the specification. -/
theorem project_eq_windowPoint (image : TextureBuffer) (v : Vector3D Binary32) :
    project image v = windowPoint image.width image.height v :=
  rfl

theorem faceOutline_congr {image image' : TextureBuffer} (hw : image'.width = image.width)
    (hh : image'.height = image.height) (model : VertexBuffer) (color : ColorBGR)
    (face : List Int) : faceOutline image' model color face = faceOutline image model color face := by
  have hp : ∀ v, project image' v = project image v := fun v => by
    simp only [project, toWindowX_congr hw, toWindowY_congr hh]
  unfold faceOutline
  split
  · simp only [triangleOutline, hp]
  · rfl

/-- One pass of the inner loop either fails, when some lookup of the pass fails, or
appends the outline of the face to the requests. -/
theorem drawFace_eq (model : VertexBuffer) (color : ColorBGR) (image : TextureBuffer)
    (face : List Int) :
    drawFace model color image face =
      (faceOutline image model color face).map
        (fun calls => { image with lines := image.lines ++ calls }) := by
  match face with
  | [] => simp [drawFace, drawEdge, indexAt, faceOutline]
  | [i0] =>
    rcases h0 : vertexAt model.vertices i0 with _ | a <;>
      simp [drawFace, drawEdge, indexAt, faceOutline, VertexBuffer.GetVertices, h0]
  | [i0, i1] =>
    rcases h0 : vertexAt model.vertices i0 with _ | a <;>
      rcases h1 : vertexAt model.vertices i1 with _ | b <;>
      simp [drawFace, drawEdge, indexAt, faceOutline, VertexBuffer.GetVertices, h0, h1]
  | i0 :: i1 :: i2 :: rest =>
    rcases h0 : vertexAt model.vertices i0 with _ | a <;>
      rcases h1 : vertexAt model.vertices i1 with _ | b <;>
      rcases h2 : vertexAt model.vertices i2 with _ | c <;>
      simp [drawFace, drawEdge, indexAt, faceOutline, VertexBuffer.GetVertices, h0, h1, h2,
        triangleOutline, project, SetLineSafe, toWindowX, toWindowY,
        TextureBuffer.GetWidth, TextureBuffer.GetHeight]

theorem faceOutline_isSome_iff (image : TextureBuffer) (model : VertexBuffer) (color : ColorBGR)
    (face : List Int) :
    (faceOutline image model color face).isSome = true ↔ ValidFace model face := by
  have hv := vertexAt_isSome_iff model.vertices
  match face with
  | [] => simp [faceOutline, ValidFace]
  | [i0] => simp [faceOutline, ValidFace]
  | [i0, i1] => simp [faceOutline, ValidFace]
  | i0 :: i1 :: i2 :: rest =>
    constructor
    · intro h
      refine ⟨by simp, ?_⟩
      rcases h0 : vertexAt model.vertices i0 with _ | a
      · simp [faceOutline, h0] at h
      rcases h1 : vertexAt model.vertices i1 with _ | b
      · simp [faceOutline, h0, h1] at h
      rcases h2 : vertexAt model.vertices i2 with _ | c
      · simp [faceOutline, h0, h1, h2] at h
      have g0 := (hv i0).1 (by rw [h0]; rfl)
      have g1 := (hv i1).1 (by rw [h1]; rfl)
      have g2 := (hv i2).1 (by rw [h2]; rfl)
      intro k hk i hi
      match k, hk with
      | 0, _ => simp at hi; rw [← hi]; exact g0
      | 1, _ => simp at hi; rw [← hi]; exact g1
      | 2, _ => simp at hi; rw [← hi]; exact g2
    · rintro ⟨-, h⟩
      have g0 := (hv i0).2 (h 0 (by decide) i0 (by simp))
      have g1 := (hv i1).2 (h 1 (by decide) i1 (by simp))
      have g2 := (hv i2).2 (h 2 (by decide) i2 (by simp))
      obtain ⟨a, h0⟩ := Option.isSome_iff_exists.1 g0
      obtain ⟨b, h1⟩ := Option.isSome_iff_exists.1 g1
      obtain ⟨c, h2⟩ := Option.isSome_iff_exists.1 g2
      simp [faceOutline, h0, h1, h2]

theorem faceOutline_length {image : TextureBuffer} {model : VertexBuffer} {color : ColorBGR}
    {face : List Int} {calls : List LineCall}
    (h : faceOutline image model color face = some calls) : calls.length = 3 := by
  match face with
  | [] => simp [faceOutline] at h
  | [i0] => simp [faceOutline] at h
  | [i0, i1] => simp [faceOutline] at h
  | i0 :: i1 :: i2 :: rest =>
    rcases h0 : vertexAt model.vertices i0 with _ | a
    · simp [faceOutline, h0] at h
    rcases h1 : vertexAt model.vertices i1 with _ | b
    · simp [faceOutline, h0, h1] at h
    rcases h2 : vertexAt model.vertices i2 with _ | c
    · simp [faceOutline, h0, h1, h2] at h
    simp [faceOutline, h0, h1, h2, triangleOutline] at h
    rw [← h]
    rfl

/-- The requests of a successful pass are the outline of the face in the words of
the specification. -/
theorem faceOutline_eq_some {image : TextureBuffer} {model : VertexBuffer} {color : ColorBGR}
    {face : List Int} {calls : List LineCall}
    (h : faceOutline image model color face = some calls) :
    IsFaceOutline image model color face calls := by
  unfold IsFaceOutline
  match face with
  | [] => simp [faceOutline] at h
  | [i0] => simp [faceOutline] at h
  | [i0, i1] => simp [faceOutline] at h
  | i0 :: i1 :: i2 :: rest =>
    rcases h0 : vertexAt model.vertices i0 with _ | a
    · simp [faceOutline, h0] at h
    rcases h1 : vertexAt model.vertices i1 with _ | b
    · simp [faceOutline, h0, h1] at h
    rcases h2 : vertexAt model.vertices i2 with _ | c
    · simp [faceOutline, h0, h1, h2] at h
    simp [faceOutline, h0, h1, h2, triangleOutline] at h
    obtain ⟨n0, rfl, g0⟩ := (vertexAt_eq_some_iff _ _ _).1 h0
    obtain ⟨n1, rfl, g1⟩ := (vertexAt_eq_some_iff _ _ _).1 h1
    obtain ⟨n2, rfl, g2⟩ := (vertexAt_eq_some_iff _ _ _).1 h2
    refine ⟨n0, n1, n2, rest, a, b, c, rfl, g0, g1, g2, ?_⟩
    rw [← h]
    rfl

theorem faceOutline_take (image : TextureBuffer) (model : VertexBuffer) (color : ColorBGR)
    (face : List Int) :
    faceOutline image model color (face.take 3) = faceOutline image model color face := by
  match face with
  | [] => rfl
  | [i0] => rfl
  | [i0, i1] => rfl
  | i0 :: i1 :: i2 :: rest => rfl

/-- The outer loop succeeds exactly when every pass of the inner loop does. -/
theorem foldlM_drawFace_isSome (model : VertexBuffer) (color : ColorBGR) (ref : TextureBuffer)
    (faces : List (List Int)) (image : TextureBuffer)
    (hw : image.width = ref.width) (hh : image.height = ref.height) :
    (List.foldlM (drawFace model color) image faces).isSome = true ↔
      ∀ face ∈ faces, (faceOutline ref model color face).isSome = true := by
  induction faces generalizing image with
  | nil => simp [List.foldlM]
  | cons face rest ih =>
    rw [List.foldlM_cons, drawFace_eq, faceOutline_congr hw hh]
    rcases h : faceOutline ref model color face with _ | calls
    · simp [h]
    · simp only [Option.map_some', Option.some_bind, List.mem_cons, forall_eq_or_imp, h,
        Option.isSome_some, true_and]
      exact ih _ hw hh

/-- When every pass succeeds, the outer loop appends the outlines in face order. -/
theorem foldlM_drawFace_some (model : VertexBuffer) (color : ColorBGR) (ref : TextureBuffer)
    (faces : List (List Int)) (image : TextureBuffer)
    (hw : image.width = ref.width) (hh : image.height = ref.height)
    (hall : ∀ face ∈ faces, (faceOutline ref model color face).isSome = true) :
    ∃ outlines : List (List LineCall),
      List.Forall₂ (fun face calls => faceOutline ref model color face = some calls)
        faces outlines ∧
      List.foldlM (drawFace model color) image faces =
        some { image with lines := image.lines ++ outlines.flatten } := by
  induction faces generalizing image with
  | nil => exact ⟨[], List.Forall₂.nil, by simp [List.foldlM]⟩
  | cons face rest ih =>
    obtain ⟨calls, hcalls⟩ := Option.isSome_iff_exists.1 (hall face (List.mem_cons_self _ _))
    obtain ⟨outlines, hrel, hfold⟩ :=
      ih { image with lines := image.lines ++ calls } hw hh
        (fun f hf => hall f (List.mem_cons_of_mem _ hf))
    refine ⟨calls :: outlines, List.Forall₂.cons hcalls hrel, ?_⟩
    rw [List.foldlM_cons, drawFace_eq, faceOutline_congr hw hh, hcalls]
    simp [hfold, List.append_assoc]

theorem flatten_length_of_outlines {image : TextureBuffer} {model : VertexBuffer}
    {color : ColorBGR} {faces : List (List Int)} {outlines : List (List LineCall)}
    (h : List.Forall₂ (fun face calls => faceOutline image model color face = some calls)
      faces outlines) :
    outlines.flatten.length = 3 * faces.length := by
  induction h with
  | nil => rfl
  | cons hhead _ ih =>
    simp only [List.flatten_cons, List.length_append, List.length_cons, ih,
      faceOutline_length hhead]
    omega

theorem foldlM_drawFace_take (model : VertexBuffer) (color : ColorBGR)
    (faces : List (List Int)) (image : TextureBuffer) :
    List.foldlM (drawFace model color) image (faces.map (List.take 3)) =
      List.foldlM (drawFace model color) image faces := by
  induction faces generalizing image with
  | nil => rfl
  | cons face rest ih =>
    simp only [List.map_cons, List.foldlM_cons, drawFace_eq, faceOutline_take]
    rcases faceOutline image model color face with _ | calls
    · rfl
    · simp only [Option.map_some', Option.some_bind]
      exact ih _

theorem truncate_eq_floor {q : ℚ} (h : 0 ≤ q) : truncate q = ⌊q⌋ := by
  unfold truncate
  rw [Int.tdiv_eq_ediv (Rat.num_nonneg.2 h) (Int.ofNat_nonneg _), Rat.floor_def]

/-- The exact truncation of a non-negative rational lying in `[z, z + 1)` is `z`. -/
theorem truncate_eq_of_bounds {q : ℚ} {z : Int} (h0 : 0 ≤ q) (h1 : (z : ℚ) ≤ q)
    (h2 : q < (z : ℚ) + 1) : truncate q = z := by
  rw [truncate_eq_floor h0]
  exact Int.floor_eq_iff.2 ⟨h1, h2⟩

end WireRendererProofs

/-! ## Claims on the wire renderer -/

section WireRendererClaims

/-- C5: `DrawWireModel` completes with no failed lookup exactly when every face has
at least three indices and each of its first three indices lies in
`0 ≤ i < number of vertices`; indices beyond the third are never read, the run on
the faces cut to their first three indices being the same run. -/
theorem DrawWireModel_completes_iff (image : TextureBuffer) (model : VertexBuffer)
    (color : ColorBGR) :
    ((DrawWireModel image model color).isSome = true ↔
        ∀ face ∈ model.faces, 3 ≤ face.length ∧
          ∀ k, k < 3 → ∀ i, face[k]? = some i → 0 ≤ i ∧ i < (model.vertices.length : Int)) ∧
      DrawWireModel image { model with faces := model.faces.map (List.take 3) } color =
        DrawWireModel image model color := by
  constructor
  · unfold DrawWireModel VertexBuffer.GetFaces
    rw [foldlM_drawFace_isSome model color image model.faces image rfl rfl]
    constructor
    · intro h face hface
      exact (faceOutline_isSome_iff image model color face).1 (h face hface)
    · intro h face hface
      exact (faceOutline_isSome_iff image model color face).2 (h face hface)
  · exact foldlM_drawFace_take model color model.faces image

/-- C7, as stated, fails on the binary32 arithmetic of `DrawWireModel`. At
`edgeVertex` on the 800 by 600 surface the code computes x = 508 and y = 300 where
the truncated exact products are 507 and 299; on the surface of width 2^24 + 3 the
vertex with `v.x = 1` is sent to x = 16777220, beyond the width. Both vertices lie
in the normalised square. -/
theorem projection_exact_rational_fails :
    ((Binary32.le (Binary32.ofInt (-1)) edgeVertex.x = true ∧
        Binary32.le edgeVertex.x (Binary32.ofInt 1) = true) ∧
      (Binary32.le (Binary32.ofInt (-1)) edgeVertex.y = true ∧
        Binary32.le edgeVertex.y (Binary32.ofInt 1) = true) ∧
      toWindowX sampleImage edgeVertex = some 508 ∧
      truncate ((edgeVertex.x.toRat + 1) * ((sampleImage.width : ℚ) / 2)) = 507 ∧
      toWindowY sampleImage edgeVertex = some 300 ∧
      truncate ((1 - edgeVertex.y.toRat) * ((sampleImage.height : ℚ) / 2)) = 299) ∧
    ((Binary32.le (Binary32.ofInt (-1)) cornerVertex.x = true ∧
        Binary32.le cornerVertex.x (Binary32.ofInt 1) = true) ∧
      cornerVertex.x = Binary32.ofInt 1 ∧
      0 < wideImage.width ∧ 0 < wideImage.height ∧
      toWindowX wideImage cornerVertex = some 16777220 ∧
      (wideImage.width : Int) < 16777220) := by
  refine ⟨⟨⟨by decide!, by decide!⟩, ⟨by decide!, by decide!⟩, by decide!, ?_, by decide!, ?_⟩,
    ⟨by decide!, by decide!⟩, by decide!, by decide!, by decide!, by decide!, by decide!⟩
  · apply truncate_eq_of_bounds <;>
      simp only [edgeVertex, sampleImage, Binary32.toRat, Binary32.signed_false] <;>
      norm_num
  · apply truncate_eq_of_bounds <;>
      simp only [edgeVertex, sampleImage, Binary32.toRat, Binary32.signed_false] <;>
      norm_num

/-- C7, amended: in binary32, on a surface whose width `W` and height `H` are
positive, below 2^31 and binary32 numbers (at most 24 significant bits, as is
every whole number up to 2^24), for a vertex with `-1 ≤ v.x ≤ 1` and
`-1 ≤ v.y ≤ 1`, the window abscissa `int((v.x + 1.0f) * (W / 2.0f))` is defined and
lies in `[0, W]`, the window ordinate `int((v.y * -1 + 1.0f) * (H / 2.0f))` is
defined and lies in `[0, H]`; `v.x = -1` gives 0, `v.x = 1` gives `W`, `v.y = 1` gives 0
and `v.y = -1` gives `H`. -/
theorem projection_in_window (image : TextureBuffer) (v : Vector3D Binary32)
    (hW : 0 < image.width ∧ image.width < 2 ^ 31 ∧ ∃ m e, m < 2 ^ 24 ∧ image.width = m * 2 ^ e)
    (hH : 0 < image.height ∧ image.height < 2 ^ 31 ∧
      ∃ m e, m < 2 ^ 24 ∧ image.height = m * 2 ^ e)
    (hx : Binary32.le (Binary32.ofInt (-1)) v.x = true ∧ Binary32.le v.x (Binary32.ofInt 1) = true)
    (hy : Binary32.le (Binary32.ofInt (-1)) v.y = true ∧ Binary32.le v.y (Binary32.ofInt 1) = true) :
    (∃ x : Int, toWindowX image v = some x ∧ 0 ≤ x ∧ x ≤ (image.width : Int)) ∧
      (∃ y : Int, toWindowY image v = some y ∧ 0 ≤ y ∧ y ≤ (image.height : Int)) ∧
      (v.x = Binary32.ofInt (-1) → toWindowX image v = some 0) ∧
      (v.x = Binary32.ofInt 1 → toWindowX image v = some (image.width : Int)) ∧
      (v.y = Binary32.ofInt 1 → toWindowY image v = some 0) ∧
      (v.y = Binary32.ofInt (-1) → toWindowY image v = some (image.height : Int)) := by
  obtain ⟨nx, kx, hvx, hkx⟩ := Binary32.finite_of_le_one hx
  obtain ⟨ny, ky, hvy, hky⟩ := Binary32.finite_of_le_one hy
  refine ⟨?_, ?_, ?_, ?_, ?_, ?_⟩
  · obtain ⟨ka, hka, hkale⟩ := Binary32.add_one_of_le nx hkx
    unfold toWindowX TextureBuffer.GetWidth
    rw [hvx, hka]
    exact static_cast_int_scaled hkale hW.2.2 hW.2.1
  · obtain ⟨k', hk', hk'le⟩ := Binary32.mul_neg_one_of_le ny hky
    obtain ⟨ka, hka, hkale⟩ := Binary32.add_one_of_le (xor ny true) hk'le
    unfold toWindowY TextureBuffer.GetHeight
    rw [hvy, hk', hka]
    exact static_cast_int_scaled hkale hH.2.2 hH.2.1
  · intro h
    unfold toWindowX TextureBuffer.GetWidth
    rw [h, Binary32.ofInt_neg_one, Binary32.add_neg_one_one]
    exact static_cast_int_scaled_zero hW.2.2 hW.2.1
  · intro h
    unfold toWindowX TextureBuffer.GetWidth
    rw [h, Binary32.ofInt_one, Binary32.add_one_one]
    exact static_cast_int_scaled_two hW.2.2 hW.2.1
  · intro h
    unfold toWindowY TextureBuffer.GetHeight
    rw [h, Binary32.ofInt_one, Binary32.mul_one_neg_one, Binary32.add_neg_one_one]
    exact static_cast_int_scaled_zero hH.2.2 hH.2.1
  · intro h
    unfold toWindowY TextureBuffer.GetHeight
    rw [h, Binary32.mul_neg_one_neg_one, Binary32.add_one_one]
    exact static_cast_int_scaled_two hH.2.2 hH.2.1

/-- C8: on a mesh whose faces all have valid indices, `DrawWireModel` completes and
issues exactly three `SetLineSafe` calls per face: in face order, for the face
with first three indices `i0`, `i1`, `i2`, the calls from the window point of `v[i0]`
to that of `v[i1]`, from `v[i1]` to `v[i2]` and from `v[i2]` to `v[i0]`, each with the
given colour. On `sampleModel` these are the six calls listed. -/
theorem DrawWireModel_outlines (image : TextureBuffer) (model : VertexBuffer) (color : ColorBGR)
    (hvalid : ∀ face ∈ model.faces, ValidFace model face) :
    (∃ (out : TextureBuffer) (outlines : List (List LineCall)),
      DrawWireModel image model color = some out ∧
      out.width = image.width ∧ out.height = image.height ∧
      out.lines = image.lines ++ outlines.flatten ∧
      out.lines.length = image.lines.length + 3 * model.faces.length ∧
      List.Forall₂ (IsFaceOutline image model color) model.faces outlines) ∧
    DrawWireModel sampleImage sampleModel sampleColor = some
      { width := 800, height := 600,
        lines :=
          [{ pointSrc := { x := some 400, y := some 300 },
             pointDst := { x := some 600, y := some 375 }, color := sampleColor },
           { pointSrc := { x := some 600, y := some 375 },
             pointDst := { x := some 0, y := some 0 }, color := sampleColor },
           { pointSrc := { x := some 0, y := some 0 },
             pointDst := { x := some 400, y := some 300 }, color := sampleColor },
           { pointSrc := { x := some 0, y := some 0 },
             pointDst := { x := some 600, y := some 375 }, color := sampleColor },
           { pointSrc := { x := some 600, y := some 375 },
             pointDst := { x := some 508, y := some 270 }, color := sampleColor },
           { pointSrc := { x := some 508, y := some 270 },
             pointDst := { x := some 0, y := some 0 }, color := sampleColor }] } := by
  refine ⟨?_, by decide!⟩
  obtain ⟨outlines, hrel, hrun⟩ :=
    foldlM_drawFace_some model color image model.faces image rfl rfl
      (fun face hface => (faceOutline_isSome_iff image model color face).2 (hvalid face hface))
  refine ⟨_, outlines, hrun, rfl, rfl, rfl, ?_, ?_⟩
  · simp only [List.length_append, flatten_length_of_outlines hrel]
  · refine List.Forall₂.imp ?_ hrel
    intro face calls h
    exact faceOutline_eq_some h

/-- C7 (amended) at `sampleImage` (800 by 600) and `sampleVertex` (0.27f, 0.1f). -/
theorem projection_in_window_witness :
    ((0 < sampleImage.width ∧ sampleImage.width < 2 ^ 31 ∧
        ∃ m e, m < 2 ^ 24 ∧ sampleImage.width = m * 2 ^ e) ∧
      (0 < sampleImage.height ∧ sampleImage.height < 2 ^ 31 ∧
        ∃ m e, m < 2 ^ 24 ∧ sampleImage.height = m * 2 ^ e) ∧
      (Binary32.le (Binary32.ofInt (-1)) sampleVertex.x = true ∧
        Binary32.le sampleVertex.x (Binary32.ofInt 1) = true) ∧
      (Binary32.le (Binary32.ofInt (-1)) sampleVertex.y = true ∧
        Binary32.le sampleVertex.y (Binary32.ofInt 1) = true)) ∧
    ((∃ x : Int, toWindowX sampleImage sampleVertex = some x ∧ 0 ≤ x ∧
        x ≤ (sampleImage.width : Int)) ∧
      (∃ y : Int, toWindowY sampleImage sampleVertex = some y ∧ 0 ≤ y ∧
        y ≤ (sampleImage.height : Int)) ∧
      (sampleVertex.x = Binary32.ofInt (-1) → toWindowX sampleImage sampleVertex = some 0) ∧
      (sampleVertex.x = Binary32.ofInt 1 →
        toWindowX sampleImage sampleVertex = some (sampleImage.width : Int)) ∧
      (sampleVertex.y = Binary32.ofInt 1 → toWindowY sampleImage sampleVertex = some 0) ∧
      (sampleVertex.y = Binary32.ofInt (-1) →
        toWindowY sampleImage sampleVertex = some (sampleImage.height : Int))) :=
  have hW : 0 < sampleImage.width ∧ sampleImage.width < 2 ^ 31 ∧
      ∃ m e, m < 2 ^ 24 ∧ sampleImage.width = m * 2 ^ e :=
    ⟨by decide, by decide, 800, 0, by decide, by decide⟩
  have hH : 0 < sampleImage.height ∧ sampleImage.height < 2 ^ 31 ∧
      ∃ m e, m < 2 ^ 24 ∧ sampleImage.height = m * 2 ^ e :=
    ⟨by decide, by decide, 600, 0, by decide, by decide⟩
  ⟨⟨hW, hH, ⟨by decide!, by decide!⟩, ⟨by decide!, by decide!⟩⟩,
    projection_in_window sampleImage sampleVertex hW hH
      ⟨by decide!, by decide!⟩ ⟨by decide!, by decide!⟩⟩

/-- C8 at `sampleModel`: both faces are valid, so six calls are issued. -/
theorem DrawWireModel_outlines_witness :
    (∀ face ∈ sampleModel.faces, ValidFace sampleModel face) ∧
    ∃ (out : TextureBuffer) (outlines : List (List LineCall)),
      DrawWireModel sampleImage sampleModel sampleColor = some out ∧
      out.width = sampleImage.width ∧ out.height = sampleImage.height ∧
      out.lines = sampleImage.lines ++ outlines.flatten ∧
      out.lines.length = sampleImage.lines.length + 3 * sampleModel.faces.length ∧
      List.Forall₂ (IsFaceOutline sampleImage sampleModel sampleColor)
        sampleModel.faces outlines :=
  have hvalid : ∀ face ∈ sampleModel.faces, ValidFace sampleModel face := by
    intro face hface
    simp only [sampleModel, List.mem_cons, List.mem_singleton, List.not_mem_nil, or_false] at hface
    rcases hface with rfl | rfl <;>
      exact (faceOutline_isSome_iff sampleImage sampleModel sampleColor _).1 rfl
  ⟨hvalid, (DrawWireModel_outlines sampleImage sampleModel sampleColor hvalid).1⟩

end WireRendererClaims

end gfx
